import Mathlib

/-!
Verification of the content-aware chunking library.

The TypeScript source (chunking.ts) is shallowly embedded below. Strings are
modelled as Lean `String` over their `List Char` data; JavaScript string
indices are modelled as `Int` (they can become negative in the fixed-length
loop); JavaScript number arithmetic on the sizes involved is exact, and the
non-representable literals 0.6, 1.8 are modelled by exact rational
cross-multiplication, which agrees with IEEE doubles on all realistic
magnitudes. Regex-based operations are embedded as explicit scanners with
exactly the leftmost-match, greedy/backtracking semantics of the JavaScript
regexes they replace. Loops that are not structurally recursive are given a
fuel parameter sized so that the fuel never runs out on the executions the
source can perform; divergence of the source loop is expressed as the fuel
returning `none` for every fuel value.
-/

namespace CAC

/-- JavaScript whitespace (`\s`) restricted to the ASCII characters that occur
in this development: space, tab, newline, carriage return, vertical tab and
form feed. -/
def isWsChar (c : Char) : Bool :=
  c = ' ' || c = '\t' || c = '\n' || c = '\r' || c = '\x0b' || c = '\x0c'

/-- Sentence terminators used by the source regexes `[.!?]`. -/
def isTermChar (c : Char) : Bool :=
  c = '.' || c = '!' || c = '?'

/-- ECMAScript line terminators in the ASCII range: with the `m` flag, `^`
matches after any of these and `$` before any of these, and `.` (without
the `s` flag) matches anything but these. -/
def isLineTerm (c : Char) : Bool :=
  c = '\n' || c = '\r'

/-- `String.prototype.trim`: strip leading whitespace. -/
def trimLeft (l : List Char) : List Char := l.dropWhile isWsChar

/-- `String.prototype.trim`: strip trailing whitespace. -/
def trimRight (l : List Char) : List Char := (l.reverse.dropWhile isWsChar).reverse

/-- `String.prototype.trim` on the character list of a string. -/
def jsTrim (l : List Char) : List Char := trimRight (trimLeft l)

/-- `text.split('\n')`: cut at every newline, keeping empty pieces. -/
def splitLinesAux : List Char → List Char → List (List Char)
  | [], cur => [cur.reverse]
  | c :: cs, cur =>
    if c = '\n' then cur.reverse :: splitLinesAux cs [] else splitLinesAux cs (c :: cur)

/-- `text.split('\n')` for a whole string. -/
def splitLines (l : List Char) : List (List Char) := splitLinesAux l []

/-- `haystack.includes(needle)`: contiguous substring test. -/
def containsSub : List Char → List Char → Bool
  | [], sub => sub.isEmpty
  | c :: t, sub => sub.isPrefixOf (c :: t) || containsSub t sub

/-- Largest index `i ≤ k` at which `pat` occurs in `text`, as an `Int`;
`-1` when there is none.  Helper for `jsLastIndexOf`. -/
def lastOccurLE (text pat : List Char) : Nat → Int
  | 0 => if pat.isPrefixOf text then 0 else -1
  | k + 1 =>
    if pat.isPrefixOf (text.drop (k + 1)) then ((k : Int) + 1)
    else lastOccurLE text pat k

/-- `text.lastIndexOf(pat, pos)`: the largest index `≤ pos` where `pat`
occurs (a negative `pos` behaves like `0`), `-1` when there is none. -/
def jsLastIndexOf (text pat : List Char) (pos : Int) : Int :=
  lastOccurLE text pat (min pos.toNat text.length)

/-- `text.substring(a, b)`: clamp both arguments into `[0, length]`, swap
them when out of order, and return the slice. -/
def jsSubstring (text : List Char) (a b : Int) : List Char :=
  if min a.toNat text.length ≤ min b.toNat text.length then
    (text.take (min b.toNat text.length)).drop (min a.toNat text.length)
  else (text.take (min a.toNat text.length)).drop (min b.toNat text.length)

/-- The backtick character, for the code-block and inline-code matchers. -/
def btChar : Char := Char.ofNat 96

/-- Generic driver for `String.prototype.replace` with a global regex whose
matches are at least one character long: scan left to right, try the matcher
at every position, emit the replacement and resume after the match.  The
fuel is set to the list length by the callers; since every step removes at
least one character from the list the fuel never runs out. -/
def scanReplace (m : List Char → Option (List Char × List Char)) :
    Nat → List Char → List Char
  | 0, l => l
  | _ + 1, [] => []
  | fuel + 1, c :: cs =>
    match m (c :: cs) with
    | some (repl, rest) => repl ++ scanReplace m fuel rest
    | none => c :: scanReplace m fuel cs

/-- Driver for `String.prototype.replace` with a `^`-anchored global
multiline regex whose replacement is empty: the matcher is tried only at
line starts (position 0 and any position right after a line terminator,
`\n` or a bare `\r` alike), and it reports whether the last character it
consumed was a line terminator, which makes the resume position a line
start again. -/
def scanAnchored (m : List Char → Option (Bool × List Char)) :
    Nat → Bool → List Char → List Char
  | 0, _, l => l
  | _ + 1, _, [] => []
  | fuel + 1, atStart, c :: cs =>
    if atStart then
      match m (c :: cs) with
      | some (nlEnd, rest) => scanAnchored m fuel nlEnd rest
      | none => c :: scanAnchored m fuel (isLineTerm c) cs
    else c :: scanAnchored m fuel (isLineTerm c) cs

/-- Matcher for `/^#{1,6}\s+/m`: one to six hash marks followed by at least
one whitespace character; the greedy `\s+` consumes the whole whitespace
run (newlines included). -/
def matchHeadingMarker (l : List Char) : Option (Bool × List Char) :=
  let k := (l.takeWhile (· = '#')).length
  if 1 ≤ k ∧ k ≤ 6 then
    let rest := l.drop k
    let ws := rest.takeWhile isWsChar
    if ws.isEmpty then none
    else some (isLineTerm (ws.getLastD ' '), rest.drop ws.length)
  else none

/-- Matcher for `/^[-*+]\s+/m`: a list marker followed by at least one
whitespace character, the greedy `\s+` consuming the whole run. -/
def matchListMarker (l : List Char) : Option (Bool × List Char) :=
  match l with
  | c :: rest =>
    if c = '-' ∨ c = '*' ∨ c = '+' then
      let ws := rest.takeWhile isWsChar
      if ws.isEmpty then none
      else some (isLineTerm (ws.getLastD ' '), rest.drop ws.length)
    else none
  | [] => none

/-- Scan for the first closing code fence, returning the suffix after it. -/
def findFenceClose : List Char → Option (List Char)
  | a :: b :: c :: rest =>
    if a = btChar ∧ b = btChar ∧ c = btChar then some rest
    else findFenceClose (b :: c :: rest)
  | _ => none

/-- Matcher for the lazy fenced-code-block regex: an opening fence, the
shortest body, a closing fence; replaced by a single space. -/
def matchCodeFence (l : List Char) : Option (List Char × List Char) :=
  match l with
  | a :: b :: c :: rest =>
    if a = btChar ∧ b = btChar ∧ c = btChar then
      (findFenceClose rest).map (fun r => ([' '], r))
    else none
  | _ => none

/-- Matcher for the inline-code regex: a backtick, at least one non-backtick
character, a backtick; replaced by a single space. -/
def matchInlineCode (l : List Char) : Option (List Char × List Char) :=
  match l with
  | c :: rest =>
    if c = btChar then
      let body := rest.takeWhile (· ≠ btChar)
      if body.isEmpty then none
      else if (rest.drop body.length).isEmpty then none
      else some ([' '], rest.drop (body.length + 1))
    else none
  | [] => none

/-- Matcher for the bold-marker regex `\*\*([^*]+)\*\*`, replaced by the
captured body. -/
def matchBold (l : List Char) : Option (List Char × List Char) :=
  match l with
  | '*' :: '*' :: rest =>
    let body := rest.takeWhile (· ≠ '*')
    if body.isEmpty then none
    else if ['*', '*'].isPrefixOf (rest.drop body.length) then
      some (body, rest.drop (body.length + 2))
    else none
  | _ => none

/-- Matcher for the italic-marker regex `\*([^*]+)\*`, replaced by the
captured body. -/
def matchItalic (l : List Char) : Option (List Char × List Char) :=
  match l with
  | '*' :: rest =>
    let body := rest.takeWhile (· ≠ '*')
    if body.isEmpty then none
    else if ['*'].isPrefixOf (rest.drop body.length) then
      some (body, rest.drop (body.length + 1))
    else none
  | _ => none

/-- Matcher for the markdown-link regex `\[([^\]]+)\]\([^)]+\)`, replaced by
the link text. -/
def matchLink (l : List Char) : Option (List Char × List Char) :=
  match l with
  | '[' :: rest =>
    let label := rest.takeWhile (· ≠ ']')
    if label.isEmpty then none
    else
      match rest.drop label.length with
      | ']' :: '(' :: r2 =>
        let url := r2.takeWhile (· ≠ ')')
        if url.isEmpty then none
        else if [')'].isPrefixOf (r2.drop url.length) then
          some (label, r2.drop (url.length + 1))
        else none
      | _ => none
  | _ => none

/-- Four consecutive decimal digits (`\d{4}`) occur somewhere. -/
def has4Digits : List Char → Bool
  | a :: b :: c :: d :: t =>
    (a.isDigit && b.isDigit && c.isDigit && d.isDigit) || has4Digits (b :: c :: d :: t)
  | _ => false

/-- Case-insensitive substring test, for the `/i`-flagged citation regexes. -/
def containsSubCI (l sub : List Char) : Bool :=
  containsSub (l.map Char.toLower) (sub.map Char.toLower)

/-- Matcher for `\([^)]*…[^)]*\)` citation patterns: a parenthesised body of
non-`)` characters satisfying `p`, removed outright. -/
def matchCitation (p : List Char → Bool) (l : List Char) : Option (List Char × List Char) :=
  match l with
  | '(' :: rest =>
    let body := rest.takeWhile (· ≠ ')')
    if [')'].isPrefixOf (rest.drop body.length) ∧ p body then
      some ([], rest.drop (body.length + 1))
    else none
  | _ => none

/-- Matcher for `/\n{3,}/`: a maximal run of three or more newlines becomes
exactly two. -/
def matchNl3 (l : List Char) : Option (List Char × List Char) :=
  match l with
  | '\n' :: _ =>
    let run := l.takeWhile (· = '\n')
    if 3 ≤ run.length then some (['\n', '\n'], l.drop run.length) else none
  | _ => none

/-- Matcher for `/\s+/`: a maximal whitespace run becomes a single space. -/
def matchWsRun (l : List Char) : Option (List Char × List Char) :=
  match l with
  | c :: _ =>
    if isWsChar c then some ([' '], l.drop (l.takeWhile isWsChar).length) else none
  | [] => none

/-- One full pass of an unanchored global replace. -/
def runReplace (m : List Char → Option (List Char × List Char)) (l : List Char) : List Char :=
  scanReplace m l.length l

/-- One full pass of a `^`-anchored global multiline strip. -/
def runAnchored (m : List Char → Option (Bool × List Char)) (l : List Char) : List Char :=
  scanAnchored m l.length true l

/-- `cleanMarkdown`: the thirteen `replace` passes of the source in order,
followed by `trim`. -/
def cleanMarkdown (content : String) : String :=
  let s1 := runAnchored matchHeadingMarker content.data
  let s2 := s1.map (fun c => if c = '|' then ' ' else c)
  let s3 := runAnchored matchListMarker s2
  let s4 := runReplace matchCodeFence s3
  let s5 := runReplace matchInlineCode s4
  let s6 := runReplace matchBold s5
  let s7 := runReplace matchItalic s6
  let s8 := runReplace matchLink s7
  let s9 := runReplace (matchCitation has4Digits) s8
  let s10 := runReplace (matchCitation (fun b => containsSubCI b "Research".data)) s9
  let s11 := runReplace (matchCitation (fun b => containsSubCI b "Source".data)) s10
  let s12 := runReplace (matchCitation (fun b => containsSubCI b "Figure".data)) s11
  let s13 := runReplace (matchCitation (fun b => containsSubCI b "Table".data)) s12
  let s14 := runReplace matchNl3 s13
  let s15 := runReplace matchWsRun s14
  String.mk (jsTrim s15)

/-- Index of the last newline inside the maximal whitespace prefix of the
list, if any.  Captures the greedy-with-backtracking behaviour of the
`\s*\n` tail of the paragraph separator regex `\n\s*\n`. -/
def lastNlInWsPrefix : List Char → Option Nat
  | [] => none
  | c :: cs =>
    if isWsChar c then
      match lastNlInWsPrefix cs with
      | some i => some (i + 1)
      | none => if c = '\n' then some 0 else none
    else none

/-- `content.split(/\n\s*\n/)`: a separator match starts at a newline and
extends to the last newline of the surrounding whitespace run. -/
def splitParasAux : Nat → List Char → List Char → List (List Char)
  | 0, l, cur => [cur.reverse ++ l]
  | _ + 1, [], cur => [cur.reverse]
  | fuel + 1, c :: cs, cur =>
    if c = '\n' then
      match lastNlInWsPrefix cs with
      | some i => cur.reverse :: splitParasAux fuel (cs.drop (i + 1)) []
      | none => splitParasAux fuel cs (c :: cur)
    else splitParasAux fuel cs (c :: cur)

/-- `content.split(/\n\s*\n/)` for a whole list. -/
def splitParas (l : List Char) : List (List Char) := splitParasAux (l.length + 1) l []

/-- `paragraph.split(/[.!?]+/)`: cut at maximal runs of sentence
terminators. -/
def splitSentAux : Nat → List Char → List Char → List (List Char)
  | 0, l, cur => [cur.reverse ++ l]
  | _ + 1, [], cur => [cur.reverse]
  | fuel + 1, c :: cs, cur =>
    if isTermChar c then cur.reverse :: splitSentAux fuel (cs.dropWhile isTermChar) []
    else splitSentAux fuel cs (c :: cur)

/-- `paragraph.split(/[.!?]+/)` for a whole list. -/
def splitSentences (l : List Char) : List (List Char) := splitSentAux (l.length + 1) l []

/-- One iteration of the inner sentence-accumulation loop of
`splitSectionIntoChunks`: state is (emitted chunks, running sentence
accumulation). -/
def sentenceStep (tmin tmax : Int) (st : List (List Char) × List Char) (sentence : List Char) :
    List (List Char) × List Char :=
  let chunks := st.1
  let sc := st.2
  let t := jsTrim sentence
  let test := sc ++ (if sc.isEmpty then [] else ['.', ' ']) ++ t
  if (test.length : Int) ≤ tmax then (chunks, test)
  else if tmin ≤ (sc.length : Int) then (chunks ++ [sc], t)
  else (chunks ++ [t], sc)

/-- One iteration of the paragraph loop of `splitSectionIntoChunks`: state
is (emitted chunks, running chunk). -/
def sectionStep (tmin tmax : Int) (st : List (List Char) × List Char) (para : List Char) :
    List (List Char) × List Char :=
  let chunks := st.1
  let cur := st.2
  let t := jsTrim para
  let test := cur ++ (if cur.isEmpty then [] else ['\n', '\n']) ++ t
  if (test.length : Int) ≤ tmax then (chunks, test)
  else if tmin ≤ (cur.length : Int) then (chunks ++ [cur], t)
  else if tmax < (para.length : Int) then
    let sentences := (splitSentences para).filter (fun s => !(jsTrim s).isEmpty)
    let st2 := sentences.foldl (sentenceStep tmin tmax) (chunks, [])
    if tmin ≤ (st2.2.length : Int) then (st2.1, st2.2) else (st2.1, [])
  else (chunks, test)

/-- The paragraph list of a section content: blank-line split, empty
paragraphs discarded. -/
def paragraphsOf (content : String) : List (List Char) :=
  (splitParas content.data).filter (fun p => !(jsTrim p).isEmpty)

/-- The full paragraph loop of `splitSectionIntoChunks`, before the final
flush. -/
def sectionLoopRun (content : String) (tmin tmax : Int) : List (List Char) × List Char :=
  (paragraphsOf content).foldl (sectionStep tmin tmax) ([], [])

/-- `splitSectionIntoChunks`: greedy paragraph packing with a sentence-level
fallback for oversized paragraphs, followed by the final-chunk flush
(`Math.floor(targetMin * 0.5)` is `Int.fdiv tmin 2`). -/
def splitSectionIntoChunks (content : String) (tmin tmax : Int) : List String :=
  let st := sectionLoopRun content tmin tmax
  let chunks := st.1
  let cur := st.2
  (if Int.fdiv tmin 2 ≤ (cur.length : Int) then chunks ++ [cur]
   else if !cur.isEmpty then
     if !chunks.isEmpty then chunks.dropLast ++ [chunks.getLastD [] ++ ['\n', '\n'] ++ cur]
     else [cur]
   else chunks).map String.mk

/-- A section of the document, as produced by `splitByHeadings`. -/
structure Section where
  title : String
  content : String
deriving DecidableEq

/-- The trimmed line matches `/^#{1,3}\s+/`: one to three hash marks
followed by a whitespace character. -/
def isHeadingLine (l : List Char) : Bool :=
  let k := (l.takeWhile (· = '#')).length
  (decide (1 ≤ k) && decide (k ≤ 3)) &&
    (match l.drop k with
     | c :: _ => isWsChar c
     | [] => false)

/-- `trimmedLine.replace(/^#{1,3}\s+/, '').trim()` on a line already known
to be a heading. -/
def headingTitle (t : List Char) : String :=
  let k := (t.takeWhile (· = '#')).length
  String.mk (jsTrim ((t.drop k).dropWhile isWsChar))

/-- One iteration of the line loop of `splitByHeadings`: state is (emitted
sections, current section, a heading was seen). -/
def sbhStep (st : List Section × Section × Bool) (line : List Char) :
    List Section × Section × Bool :=
  let secs := st.1
  let cur := st.2.1
  let hasH := st.2.2
  let t := jsTrim line
  if isHeadingLine t then
    let secs' := if !(jsTrim cur.content.data).isEmpty then secs ++ [cur] else secs
    (secs', ⟨headingTitle t, ""⟩, true)
  else
    let newContent :=
      if cur.content.data.isEmpty then String.mk line
      else cur.content ++ "\n" ++ String.mk line
    (secs, ⟨cur.title, newContent⟩, hasH)

/-- `splitByHeadings`: scan lines, emit a section at each heading, and emit
the trailing section only when a heading was seen and it has non-whitespace
content. -/
def splitByHeadings (text : String) : List Section :=
  let st := (splitLines text.data).foldl sbhStep ([], ⟨"", ""⟩, false)
  if st.2.2 && !(jsTrim st.2.1.content.data).isEmpty then st.1 ++ [st.2.1] else st.1

/-- The last element of the list that is not a line terminator, if any. -/
def lastNonTerm : List Char → Option Char
  | [] => none
  | c :: t =>
    match lastNonTerm t with
    | some d => some d
    | none => if isLineTerm c then none else some c

/-- Attempt to match `/^#\s+(.+)$/m` at a position already known to be a
line start, returning the captured group.  The greedy `\s+` may consume
line terminators, and `(.+)` then captures up to the next line terminator
(the multiline `$` holds there).  When nothing follows the whitespace run,
`\s+` backtracks from the longest prefix: the winning split hands `(.+)`
exactly the last non-terminator whitespace character at position 1 or
later, every later whitespace character being a terminator; if the run
past its first character is all terminators there is no match. -/
def matchTitleAt (l : List Char) : Option (List Char) :=
  match l with
  | '#' :: rest =>
    let ws := rest.takeWhile isWsChar
    if ws.isEmpty then none
    else
      let r := rest.drop ws.length
      if !r.isEmpty then some (r.takeWhile (fun c => !isLineTerm c))
      else
        match lastNonTerm (ws.drop 1) with
        | some c => some [c]
        | none => none
  | _ => none

/-- Scan for the first line start where the title regex matches: position 0
and every position right after a line terminator (`\n` or a bare `\r`). -/
def titleScan : Bool → List Char → Option (List Char)
  | _, [] => none
  | atStart, c :: cs =>
    if atStart then
      match matchTitleAt (c :: cs) with
      | some g => some g
      | none => titleScan (isLineTerm c) cs
    else titleScan (isLineTerm c) cs

/-- `extractDocumentTitle`: the first level-1 heading of the original text,
defaulting to `Document`. -/
def extractDocumentTitle (text : String) : String :=
  match titleScan true text.data with
  | some g => String.mk (jsTrim g)
  | none => "Document"

/-- `createHierarchicalChunks`: cap the target, derive the minimum
(`Math.floor(x * 0.6)` is `Int.fdiv (3 * x) 5`), split into sections
(substituting the implicit `Document` section when none are found), clean
and split each section, and prefix every chunk with its context. -/
def createHierarchicalChunks (text : String) (targetMax : Int) : List String :=
  let adjustedTargetMax := min targetMax 1800
  let targetMin := Int.fdiv (3 * adjustedTargetMax) 5
  let sections0 := splitByHeadings text
  let sections := if sections0.isEmpty then [⟨"Document", text⟩] else sections0
  sections.enum.flatMap fun p =>
    let sectionTitle := if p.2.title = "" then "Section " ++ toString (p.1 + 1) else p.2.title
    (splitSectionIntoChunks (cleanMarkdown p.2.content) targetMin adjustedTargetMax).map
      fun c => "Title: " ++ extractDocumentTitle text ++ "\nSection: " ++ sectionTitle ++
        "\nContent: " ++ c

/-- Fallback criterion 1: no chunks were produced. -/
def fbNoChunks (chunks : List String) : Bool := chunks.length = 0

/-- Fallback criterion 2: exactly one chunk, longer than three times the
maximum size. -/
def fbSingleOversized (maxC : Int) (chunks : List String) : Bool :=
  match chunks with
  | [c] => decide (3 * maxC < (c.data.length : Int))
  | _ => false

/-- The chunk contains the substring `Section: Section 1` or
`Section: Document` (the generic placeholders), via `String.includes`. -/
def genericSectionChunk (c : String) : Bool :=
  containsSub c.data "Section: Section 1".data || containsSub c.data "Section: Document".data

/-- Fallback criterion 3: every chunk carries a generic placeholder
section. -/
def fbAllGeneric (chunks : List String) : Bool := chunks.all genericSectionChunk

/-- `chunk.match(/Content: (.+)$/s)`: everything after the first occurrence
of `Content: ` that is followed by at least one character. -/
def matchContentAfter : List Char → Option (List Char)
  | [] => none
  | c :: t =>
    if "Content: ".data.isPrefixOf (c :: t) ∧ ¬((c :: t).drop 9).isEmpty then
      some ((c :: t).drop 9)
    else matchContentAfter t

/-- The list ends with a sentence terminator (`/[.!?]$/`). -/
def endsWithTerminator (l : List Char) : Bool :=
  match l.getLast? with
  | some c => isTermChar c
  | none => false

/-- The chunk has a `Content: ` payload whose trimmed text does not end in a
sentence terminator. -/
def brokenSentenceChunk (c : String) : Bool :=
  match matchContentAfter c.data with
  | none => false
  | some content => !(endsWithTerminator (jsTrim content))

/-- Fallback criterion 4: broken-sentence chunks outnumber half of the
chunks (`count > length * 0.5`, cross-multiplied). -/
def fbBroken (chunks : List String) : Bool :=
  decide (chunks.length < 2 * (chunks.filter brokenSentenceChunk).length)

/-- `Math.ceil(length / 3000)` on naturals. -/
def expectedMinChunks (origLen : Nat) : Nat := (origLen + 2999) / 3000

/-- Fallback criterion 5: fewer chunks than one per 3000 characters of the
original text. -/
def fbTooFew (origText : String) (chunks : List String) : Bool :=
  decide (chunks.length < expectedMinChunks origText.data.length)

/-- Fallback criterion 6: more than 60% of the chunks exceed twice the
maximum size (`count > length * 0.6`, cross-multiplied). -/
def fbManyLarge (maxC : Int) (chunks : List String) : Bool :=
  decide (3 * (chunks.length : Int) <
    5 * ((chunks.filter fun c => decide (2 * maxC < (c.data.length : Int))).length : Int))

/-- Fallback criterion 7: the mean chunk length exceeds 1.8 times the
maximum size (`sum / length > maxC * 1.8`, cross-multiplied). -/
def fbAvgLarge (maxC : Int) (chunks : List String) : Bool :=
  decide (9 * maxC * (chunks.length : Int) <
    5 * (((chunks.map fun c => c.data.length).sum : Int)))

/-- `shouldUseFixedLengthFallback`: the ordered short-circuiting criterion
chain of the source. -/
def shouldUseFixedLengthFallback (originalText : String) (chunks : List String)
    (maxC : Int) : Bool :=
  if fbNoChunks chunks then true
  else if fbSingleOversized maxC chunks then true
  else if fbAllGeneric chunks then true
  else if fbBroken chunks then true
  else if fbTooFew originalText chunks then true
  else if fbManyLarge maxC chunks then true
  else if fbAvgLarge maxC chunks then true
  else false

/-- The end offset chosen by one iteration of `createFixedLengthChunks`:
propose `start + maxC`, then snap back to just after the last sentence or
paragraph boundary when that lies past the half-window point
(`breakPoint > start + maxC * 0.5`, cross-multiplied by 2). -/
def flSnap (text : List Char) (maxC : Int) (start : Int) : Int :=
  if start + maxC < (text.length : Int) then
    if 2 * start + maxC <
        2 * max (jsLastIndexOf text ['.'] (start + maxC))
          (jsLastIndexOf text ['\n', '\n'] (start + maxC)) then
      max (jsLastIndexOf text ['.'] (start + maxC))
        (jsLastIndexOf text ['\n', '\n'] (start + maxC)) + 1
    else start + maxC
  else start + maxC

/-- The push step of one iteration of `createFixedLengthChunks`: the trimmed
window `[start, e)` is appended when non-empty. -/
def flPush (text : List Char) (start e : Int) (acc : List (List Char)) : List (List Char) :=
  if !(jsTrim (jsSubstring text start e)).isEmpty then acc ++ [jsTrim (jsSubstring text start e)]
  else acc

/-- The while loop of `createFixedLengthChunks`, with fuel.  Each iteration
emits the trimmed window when non-empty and advances
`start = end - overlapSize`; `none` means the fuel ran out before the loop
exited, which is how a diverging run of the source loop shows up. -/
def flLoop (text : List Char) (maxC ov : Int) : Nat → Int → List (List Char) →
    Option (List (List Char))
  | 0, _, _ => none
  | fuel + 1, start, acc =>
    if start < (text.length : Int) then
      if (text.length : Int) ≤ flSnap text maxC start - ov then
        some (flPush text start (flSnap text maxC start) acc)
      else
        flLoop text maxC ov fuel (flSnap text maxC start - ov)
          (flPush text start (flSnap text maxC start) acc)
    else some acc

/-- The loop of `createFixedLengthChunks` exits after finitely many
iterations from offset 0. -/
def flTerminates (text : List Char) (maxC ov : Int) : Prop :=
  ∃ fuel, (flLoop text maxC ov fuel 0 []).isSome

/-- The loop of `createFixedLengthChunks` never exits from offset 0,
whatever the fuel. -/
def flDiverges (text : List Char) (maxC ov : Int) : Prop :=
  ∀ fuel, flLoop text maxC ov fuel 0 [] = none

/-- `createFixedLengthChunks`, run with fuel `length + 1`.  Under the caller
contract (in particular the default parameters 1000/100) the loop advances
by at least one character per iteration, so this fuel is never exhausted
and the result equals the source loop. -/
def createFixedLengthChunks (text : String) (maxC ov : Int) : List String :=
  ((flLoop text.data maxC ov (text.data.length + 1) 0 []).getD []).map String.mk

/-- The chunking method tag of a `ChunkResult`. -/
inductive ChunkMethod where
  | content_aware_hierarchical
  | fixed_length
deriving DecidableEq

/-- The result record of `chunkText`. -/
structure ChunkResult where
  chunks : List String
  method : ChunkMethod
deriving DecidableEq

/-- `chunkText`: empty or whitespace-only input short-circuits; otherwise
hierarchical chunking runs first and the fallback evaluator decides whether
to replace its output with fixed-length chunks. -/
def chunkText (text : String) (maxChunkSize : Int := 1000) (overlapSize : Int := 100) :
    ChunkResult :=
  if text.data.isEmpty || (jsTrim text.data).isEmpty then
    ⟨[], ChunkMethod.content_aware_hierarchical⟩
  else
    let hierarchicalChunks := createHierarchicalChunks text maxChunkSize
    if shouldUseFixedLengthFallback text hierarchicalChunks maxChunkSize then
      ⟨createFixedLengthChunks text maxChunkSize overlapSize, ChunkMethod.fixed_length⟩
    else ⟨hierarchicalChunks, ChunkMethod.content_aware_hierarchical⟩

/-- `Math.round` on an exact rational (floats round these magnitudes
exactly): half-up rounding. -/
def jsRound (q : ℚ) : Int := ⌊q + 1 / 2⌋

/-- The statistics record returned by `analyzeChunkingQuality`; rational
fields model the double-precision values exactly. -/
structure ChunkingStats where
  totalChunks : Nat
  method : ChunkMethod
  averageChunkSize : Int
  minChunkSize : Nat
  maxChunkSize : Nat
  sentenceBoundaryPreservation : ℚ
  fallbackTriggered : Bool
  fallbackReasons : List String

/-- `analyzeChunkingQuality`: size statistics and the share of chunks whose
content ends at a sentence boundary. -/
def analyzeChunkingQuality (chunks : List String) (method : ChunkMethod) : ChunkingStats :=
  if chunks.length = 0 then
    ⟨0, method, 0, 0, 0, 0, method = ChunkMethod.fixed_length, []⟩
  else
    let chunkSizes : List Nat := chunks.map fun c => c.data.length
    let averageChunkSize : ℚ := (chunkSizes.sum : ℚ) / (chunkSizes.length : ℚ)
    let minChunkSize : Nat := chunkSizes.foldl min (chunkSizes.headD 0)
    let maxChunkSize : Nat := chunkSizes.foldl max (chunkSizes.headD 0)
    let properCount := (chunks.filter fun c =>
      let content :=
        if method = ChunkMethod.content_aware_hierarchical then
          (matchContentAfter c.data).getD c.data
        else c.data
      endsWithTerminator (jsTrim content)).length
    let pct : ℚ := ((properCount : ℚ) / (chunks.length : ℚ)) * 100
    ⟨chunks.length, method, jsRound averageChunkSize, minChunkSize, maxChunkSize,
      (jsRound (pct * 100) : ℚ) / 100, method = ChunkMethod.fixed_length, []⟩

/-! ### Whitespace and trim lemmas -/

theorem jsTrim_eq_nil_iff (l : List Char) : jsTrim l = [] ↔ ∀ c ∈ l, isWsChar c := by
  unfold jsTrim trimRight trimLeft
  rw [List.reverse_eq_nil_iff, List.dropWhile_eq_nil_iff]
  constructor
  · intro h c hc
    rcases List.mem_append.mp ((List.takeWhile_append_dropWhile isWsChar l) ▸ hc) with h1 | h2
    · exact List.mem_takeWhile_imp h1
    · exact h c (List.mem_reverse.mpr h2)
  · intro h c hc
    exact h c ((List.dropWhile_suffix isWsChar).subset (List.mem_reverse.mp hc))

theorem jsTrim_prefix_trimLeft (l : List Char) : jsTrim l <+: trimLeft l := by
  have h0 : (jsTrim l).reverse <:+ (trimLeft l).reverse := by
    unfold jsTrim trimRight
    rw [List.reverse_reverse]
    exact List.dropWhile_suffix isWsChar
  exact List.reverse_suffix.mp h0

theorem jsTrim_isInfix (l : List Char) : jsTrim l <:+: l :=
  (jsTrim_prefix_trimLeft l).isInfix.trans (List.dropWhile_suffix isWsChar).isInfix

/-! ### C9: empty and whitespace-only input -/

/-- C9: for every input that is empty or consists only of whitespace,
`chunkText` returns no chunks and the hierarchical method tag immediately,
without attempting the fallback path. -/
theorem claim_C9 (text : String) (h : jsTrim text.data = []) :
    chunkText text 1000 100 = ⟨[], ChunkMethod.content_aware_hierarchical⟩ := by
  unfold chunkText
  simp [h]

/-- Witness for C9 at the two concrete inputs named by the claim. -/
theorem claim_C9_witness :
    chunkText "" 1000 100 = ⟨[], ChunkMethod.content_aware_hierarchical⟩ ∧
    chunkText "   " 1000 100 = ⟨[], ChunkMethod.content_aware_hierarchical⟩ :=
  ⟨claim_C9 "" (by decide), claim_C9 "   " (by decide)⟩

/-! ### C10: fallbackReasons is never populated -/

/-- C10: `analyzeChunkingQuality` returns an empty `fallbackReasons` list on
every input, empty or not. -/
theorem claim_C10 (chunks : List String) (method : ChunkMethod) :
    (analyzeChunkingQuality chunks method).fallbackReasons = [] := by
  unfold analyzeChunkingQuality
  split <;> rfl

/-! ### C4: counterexample (non-empty whitespace-only input) -/

/-- C4 counterexample: the three-space string is a non-empty input on which
`chunkText` with default parameters returns zero chunks, refuting the claim
as stated. -/
theorem claim_C4_counterexample :
    ("   " : String) ≠ "" ∧ (chunkText "   " 1000 100).chunks = [] := by
  constructor
  · decide
  · decide

/-! ### C5: splitByHeadings policies -/

theorem sbh_foldl_no_heading (lines : List (List Char)) :
    ∀ st : List Section × Section × Bool,
      (∀ l ∈ lines, isHeadingLine (jsTrim l) = false) →
      (lines.foldl sbhStep st).1 = st.1 ∧ (lines.foldl sbhStep st).2.2 = st.2.2 := by
  induction lines with
  | nil => intro st _; exact ⟨rfl, rfl⟩
  | cons l ls ih =>
    intro st h
    rw [List.foldl_cons]
    have hl := h l (List.mem_cons_self _ _)
    obtain ⟨h1, h2⟩ := ih (sbhStep st l) (fun x hx => h x (List.mem_cons_of_mem _ hx))
    have e1 : (sbhStep st l).1 = st.1 := by simp [sbhStep, hl]
    have e2 : (sbhStep st l).2.2 = st.2.2 := by simp [sbhStep, hl]
    exact ⟨h1.trans e1, h2.trans e2⟩

theorem splitByHeadings_eq_nil (text : String)
    (h : ∀ l ∈ splitLines text.data, isHeadingLine (jsTrim l) = false) :
    splitByHeadings text = [] := by
  obtain ⟨h1, h2⟩ := sbh_foldl_no_heading (splitLines text.data) ([], ⟨"", ""⟩, false) h
  unfold splitByHeadings
  simp [h2, h1]

/-- C5: when no line of the input is a heading after trimming,
`splitByHeadings` returns the empty sequence (not an implicit section); and
the trailing in-progress section is emitted exactly when a heading was seen
and its content is non-whitespace. -/
theorem claim_C5 (text : String) :
    ((∀ l ∈ splitLines text.data, isHeadingLine (jsTrim l) = false) →
      splitByHeadings text = []) ∧
    (∀ st : List Section × Section × Bool,
      st = (splitLines text.data).foldl sbhStep ([], ⟨"", ""⟩, false) →
      (st.2.2 = false ∨ jsTrim st.2.1.content.data = [] → splitByHeadings text = st.1) ∧
      (st.2.2 = true → jsTrim st.2.1.content.data ≠ [] →
        splitByHeadings text = st.1 ++ [st.2.1])) := by
  constructor
  · exact splitByHeadings_eq_nil text
  · intro st hst
    constructor
    · intro h
      unfold splitByHeadings
      rw [← hst]
      rcases h with h | h
      · simp [h]
      · simp [h]
    · intro h1 h2
      unfold splitByHeadings
      rw [← hst]
      simp [h1, h2]

/-- Witness for C5: a two-line document with no heading yields no
sections. -/
theorem claim_C5_witness : splitByHeadings "plain prose\nno headings here" = [] :=
  (claim_C5 "plain prose\nno headings here").1 (by decide)

/-! ### C1: splitSectionIntoChunks flush and the silent discard -/

/-- C1 counterexample: with `targetMin = 10`, `targetMax = 20` the single
paragraph consists of an oversized sentence followed by the short sentence
`bb`; the residual sentence accumulation `bb` is below `targetMin` after the
forced split, the source assigns `currentChunk = ''`, and `bb` appears in no
returned chunk even though it occurs in the input. -/
theorem claim_C1_counterexample :
    (0 : Int) < 10 ∧ (10 : Int) ≤ 20 ∧
    splitSectionIntoChunks "aaaaaaaaaaaaaaaaaaaaaaaaa. bb" 10 20 =
      ["aaaaaaaaaaaaaaaaaaaaaaaaa"] ∧
    containsSub "aaaaaaaaaaaaaaaaaaaaaaaaa. bb".data "bb".data = true ∧
    containsSub "aaaaaaaaaaaaaaaaaaaaaaaaa".data "bb".data = false := by
  refine ⟨by decide, by decide, by decide, by decide, by decide⟩

/-- C1 as amended: after the paragraph loop the trailing accumulation is
flushed when its length is at least `floor(targetMin * 0.5)`; when smaller
but non-empty it is appended to the previous chunk, or emitted alone when
no chunk exists; when empty nothing is added.  (Text can nevertheless be
discarded inside the loop, as the counterexample shows.) -/
theorem claim_C1 (content : String) (tmin tmax : Int) :
    ∀ st : List (List Char) × List Char, st = sectionLoopRun content tmin tmax →
      (Int.fdiv tmin 2 ≤ (st.2.length : Int) →
        splitSectionIntoChunks content tmin tmax = (st.1 ++ [st.2]).map String.mk) ∧
      ((st.2.length : Int) < Int.fdiv tmin 2 → st.2 ≠ [] → st.1 ≠ [] →
        splitSectionIntoChunks content tmin tmax =
          (st.1.dropLast ++ [st.1.getLastD [] ++ ['\n', '\n'] ++ st.2]).map String.mk) ∧
      ((st.2.length : Int) < Int.fdiv tmin 2 → st.2 ≠ [] → st.1 = [] →
        splitSectionIntoChunks content tmin tmax = [String.mk st.2]) ∧
      ((st.2.length : Int) < Int.fdiv tmin 2 → st.2 = [] →
        splitSectionIntoChunks content tmin tmax = st.1.map String.mk) := by
  intro st hst
  have hne : (st.2.length : Int) < Int.fdiv tmin 2 → ¬ (Int.fdiv tmin 2 ≤ (st.2.length : Int)) :=
    fun h => by omega
  refine ⟨?_, ?_, ?_, ?_⟩
  · intro h
    unfold splitSectionIntoChunks
    rw [← hst]
    simp [h]
  · intro h h2 h3
    unfold splitSectionIntoChunks
    rw [← hst]
    simp [hne h, h2, h3]
  · intro h h2 h3
    unfold splitSectionIntoChunks
    rw [← hst]
    simp [hne h, h2, h3]
  · intro h h2
    have h' : (0 : Int) < Int.fdiv tmin 2 := by rw [h2] at h; simpa using h
    have h0 : ¬ (Int.fdiv tmin 2 ≤ (0 : Int)) := by omega
    unfold splitSectionIntoChunks
    rw [← hst]
    simp [h2, h0]

/-- Witness for C1 at a short concrete section. -/
theorem claim_C1_witness :
    splitSectionIntoChunks "Hello world." 10 100 =
      ((sectionLoopRun "Hello world." 10 100).1 ++
        [(sectionLoopRun "Hello world." 10 100).2]).map String.mk :=
  ((claim_C1 "Hello world." 10 100) (sectionLoopRun "Hello world." 10 100) rfl).1 (by decide)

/-! ### C2: cleanMarkdown whitespace normalization -/

theorem head?_of_isPrefix {l1 l2 : List Char} (h : l1 <+: l2) {c : Char}
    (hc : l1.head? = some c) : l2.head? = some c := by
  obtain ⟨t, rfl⟩ := h
  cases l1 with
  | nil => simp at hc
  | cons a tl => simpa using hc

theorem head?_dropWhile_not {p : Char → Bool} :
    ∀ (l : List Char) {c : Char}, (l.dropWhile p).head? = some c → p c = false := by
  intro l
  induction l with
  | nil => intro c hc; simp [List.dropWhile] at hc
  | cons a tl ih =>
    intro c hc
    by_cases ha : p a
    · rw [List.dropWhile_cons_of_pos ha] at hc
      exact ih hc
    · rw [List.dropWhile_cons_of_neg ha] at hc
      simp at hc
      rw [← hc]
      exact Bool.of_not_eq_true ha

theorem scanReplace_step_some {m : List Char → Option (List Char × List Char)}
    {fuel : Nat} {c : Char} {cs repl rest : List Char}
    (hm : m (c :: cs) = some (repl, rest)) :
    scanReplace m (fuel + 1) (c :: cs) = repl ++ scanReplace m fuel rest := by
  rw [scanReplace, hm]

theorem scanReplace_step_none {m : List Char → Option (List Char × List Char)}
    {fuel : Nat} {c : Char} {cs : List Char} (hm : m (c :: cs) = none) :
    scanReplace m (fuel + 1) (c :: cs) = c :: scanReplace m fuel cs := by
  rw [scanReplace, hm]

theorem matchWsRun_pos {c : Char} {cs : List Char} (hc : isWsChar c = true) :
    matchWsRun (c :: cs) =
      some ([' '], (c :: cs).drop ((c :: cs).takeWhile isWsChar).length) := by
  simp [matchWsRun, hc]

theorem matchWsRun_neg {c : Char} {cs : List Char} (hc : isWsChar c = false) :
    matchWsRun (c :: cs) = none := by
  simp [matchWsRun, hc]

/-- `spaceNormal`: all whitespace is the plain space character and no two
adjacent characters are both whitespace. -/
def spaceNormal (l : List Char) : Prop :=
  (∀ c ∈ l, isWsChar c = true → c = ' ') ∧
  List.Chain' (fun a b => ¬(isWsChar a = true ∧ isWsChar b = true)) l

theorem ws_scan_head :
    ∀ (fuel : Nat) (l : List Char) {c : Char},
      (scanReplace matchWsRun fuel l).head? = some c →
      (∀ c0, l.head? = some c0 → isWsChar c0 = false) → isWsChar c = false := by
  intro fuel l c hc h0
  match fuel, l with
  | 0, l => exact h0 c hc
  | _ + 1, [] => simp [scanReplace] at hc
  | fuel + 1, a :: tl =>
    have ha : isWsChar a = false := h0 a rfl
    rw [scanReplace_step_none (matchWsRun_neg ha)] at hc
    simp at hc
    rw [← hc]
    exact ha

theorem drop_length_takeWhile (p : Char → Bool) (l : List Char) :
    l.drop (l.takeWhile p).length = l.dropWhile p := by
  nth_rewrite 2 [← List.takeWhile_append_dropWhile p l]
  exact List.drop_left _ _

theorem ws_scan_spaceNormal :
    ∀ (fuel : Nat) (l : List Char), l.length ≤ fuel →
      spaceNormal (scanReplace matchWsRun fuel l) := by
  intro fuel
  induction fuel with
  | zero =>
    intro l hl
    have h0 : l = [] := List.length_eq_zero.mp (Nat.le_zero.mp hl)
    subst h0
    exact ⟨by simp [scanReplace], by simp [scanReplace]⟩
  | succ fuel ih =>
    intro l hl
    match l with
    | [] => exact ⟨by simp [scanReplace], by simp [scanReplace]⟩
    | a :: tl =>
      by_cases ha : isWsChar a
      · rw [scanReplace_step_some (matchWsRun_pos ha), drop_length_takeWhile]
        have hlen : ((a :: tl).dropWhile isWsChar).length ≤ fuel := by
          have h1 : ((a :: tl).dropWhile isWsChar).length ≤ tl.length := by
            rw [List.dropWhile_cons_of_pos ha]
            exact (List.dropWhile_suffix isWsChar).length_le
          have h2 : tl.length + 1 ≤ fuel + 1 := by simpa using hl
          omega
        have hgood := ih _ hlen
        refine ⟨?_, ?_⟩
        · intro c hcmem hcws
          rcases List.mem_cons.mp hcmem with h | h
          · exact h
          · exact hgood.1 c h hcws
        · rw [List.cons_append, List.nil_append, List.chain'_cons']
          refine ⟨?_, hgood.2⟩
          intro y hy hcontra
          have hyws : isWsChar y = false := by
            refine ws_scan_head fuel _ hy ?_
            intro c0 hc0
            exact head?_dropWhile_not _ hc0
          rw [hyws] at hcontra
          exact absurd hcontra.2 (by simp)
      · have ha' : isWsChar a = false := Bool.of_not_eq_true ha
        rw [scanReplace_step_none (matchWsRun_neg ha')]
        have hgood := ih tl (by
          have h2 : tl.length + 1 ≤ fuel + 1 := by simpa using hl
          omega)
        refine ⟨?_, ?_⟩
        · intro c hcmem hcws
          rcases List.mem_cons.mp hcmem with h | h
          · rw [h, ha'] at hcws; exact absurd hcws (by simp)
          · exact hgood.1 c h hcws
        · rw [List.chain'_cons']
          refine ⟨?_, hgood.2⟩
          intro y _ hcontra
          rw [ha'] at hcontra
          exact absurd hcontra.1 (by simp)

theorem spaceNormal_of_isInfix {l1 l2 : List Char} (h : l1 <:+: l2)
    (hg : spaceNormal l2) : spaceNormal l1 :=
  ⟨fun c hc hw => hg.1 c (h.subset hc) hw, List.Chain'.infix hg.2 h⟩

/-- C2 counterexample: a paragraph break (three newlines) does not survive
as a double newline; the final whitespace pass flattens it to a single
space, so the output contains no newline at all. -/
theorem claim_C2_counterexample :
    cleanMarkdown "a\n\n\nb" = "a b" ∧ '\n' ∉ (cleanMarkdown "a\n\n\nb").data := by
  refine ⟨by decide, by decide⟩

/-- C2 as amended: for every input, every whitespace run of the output of
`cleanMarkdown` — newline runs included — is collapsed to a single plain
space (so no newline survives into the output and a paragraph break does
not survive as a double newline), there is no leading or trailing
whitespace, and the empty input yields the empty output. -/
theorem claim_C2 (content : String) :
    (∀ c ∈ (cleanMarkdown content).data, isWsChar c = true → c = ' ') ∧
    List.Chain' (fun a b => ¬(isWsChar a = true ∧ isWsChar b = true))
      (cleanMarkdown content).data ∧
    (∀ c, (cleanMarkdown content).data.head? = some c → isWsChar c = false) ∧
    (∀ c, (cleanMarkdown content).data.getLast? = some c → isWsChar c = false) ∧
    cleanMarkdown "" = "" := by
  have hdata : ∃ s, cleanMarkdown content = String.mk (jsTrim (runReplace matchWsRun s)) :=
    ⟨_, rfl⟩
  obtain ⟨s, hs⟩ := hdata
  have hdef : (cleanMarkdown content).data = jsTrim (runReplace matchWsRun s) := by
    rw [hs]
  set s15 := runReplace matchWsRun s with hs15
  have hsn : spaceNormal s15 := ws_scan_spaceNormal _ _ le_rfl
  have htrim : spaceNormal (jsTrim s15) := spaceNormal_of_isInfix (jsTrim_isInfix s15) hsn
  refine ⟨?_, ?_, ?_, ?_, by decide⟩
  · rw [hdef]; exact htrim.1
  · rw [hdef]; exact htrim.2
  · rw [hdef]
    intro c hc
    have h1 : (trimLeft s15).head? = some c :=
      head?_of_isPrefix (jsTrim_prefix_trimLeft s15) hc
    exact head?_dropWhile_not _ h1
  · rw [hdef]
    intro c hc
    have h1 : (jsTrim s15).getLast? = some c := hc
    unfold jsTrim trimRight at h1
    rw [List.getLast?_reverse] at h1
    exact head?_dropWhile_not _ h1

/-- Witness for C2 at a concrete input. -/
theorem claim_C2_witness : isWsChar 'x' = false :=
  (claim_C2 "x  y").2.2.1 'x' (by decide)

/-! ### C3: termination of the fixed-length loop -/

/-- The text of the C3 counterexample: a sentence boundary near the start of
a long tail, so that the snapped end stays behind `start + overlapSize`. -/
def c3text : List Char := "aaaaaa.bbbbbbbbbbbb".data

theorem flLoop_c3_stuck : ∀ (f : Nat) (acc : List (List Char)),
    flLoop c3text 10 9 f (-2) acc = none := by
  intro f
  induction f with
  | zero => intro acc; rfl
  | succ f ih =>
    intro acc
    have hred : flLoop c3text 10 9 (f + 1) (-2) acc =
        flLoop c3text 10 9 f (-2) (acc ++ [jsTrim (jsSubstring c3text (-2) 7)]) := rfl
    rw [hred]
    exact ih _

/-- C3 counterexample: `maxChunkSize = 10`, `overlapSize = 9` satisfy the
stated caller contract, yet on this text the snapped end keeps landing just
after the sentence boundary at index 6, the next start is `7 - 9 = -2`
forever, and the loop never reaches the text length. -/
theorem claim_C3_counterexample :
    (0 : Int) < 9 ∧ (9 : Int) < 10 ∧ flDiverges c3text 10 9 := by
  refine ⟨by norm_num, by norm_num, ?_⟩
  intro fuel
  match fuel with
  | 0 => rfl
  | f + 1 =>
    have h0 : flLoop c3text 10 9 (f + 1) 0 [] =
        flLoop c3text 10 9 f (-2) [jsTrim (jsSubstring c3text 0 7)] := rfl
    rw [h0]
    exact flLoop_c3_stuck f _

theorem flSnap_progress (text : List Char) (maxC ov : Int) (h2 : ov < maxC)
    (h3 : 2 * ov ≤ maxC + 2) (start : Int) :
    start + 1 ≤ flSnap text maxC start - ov := by
  unfold flSnap
  by_cases hend : start + maxC < (text.length : Int)
  · rw [if_pos hend]
    by_cases hbp : 2 * start + maxC <
        2 * max (jsLastIndexOf text ['.'] (start + maxC))
          (jsLastIndexOf text ['\n', '\n'] (start + maxC))
    · rw [if_pos hbp]
      omega
    · rw [if_neg hbp]
      omega
  · rw [if_neg hend]
    omega

theorem flLoop_total (text : List Char) (maxC ov : Int) (h2 : ov < maxC)
    (h3 : 2 * ov ≤ maxC + 2) :
    ∀ (fuel : Nat) (start : Int) (acc : List (List Char)),
      ((text.length : Int) - start).toNat < fuel →
      (flLoop text maxC ov fuel start acc).isSome := by
  intro fuel
  induction fuel with
  | zero => intro start acc h; omega
  | succ fuel ih =>
    intro start acc hlt
    rw [flLoop]
    by_cases hs : start < (text.length : Int)
    · rw [if_pos hs]
      by_cases hstop : (text.length : Int) ≤ flSnap text maxC start - ov
      · rw [if_pos hstop]
        simp
      · rw [if_neg hstop]
        apply ih
        have hprog := flSnap_progress text maxC ov h2 h3 start
        omega
    · rw [if_neg hs]
      simp

/-- C3 as amended: the loop terminates for every text whenever the caller
contract additionally bounds the overlap by half the window plus one
(`2 * overlapSize ≤ maxChunkSize + 2`); the original contract alone
admits divergence, as the counterexample shows. -/
theorem claim_C3 (text : List Char) (maxC ov : Int) (h1 : 0 < ov) (h2 : ov < maxC)
    (h3 : 2 * ov ≤ maxC + 2) : flTerminates text maxC ov :=
  ⟨text.length + 1, flLoop_total text maxC ov h2 h3 _ 0 [] (by omega)⟩

/-- Witness for C3 at the default-shaped parameters on a short text. -/
theorem claim_C3_witness : flTerminates "hello. world.".data 10 4 :=
  claim_C3 "hello. world.".data 10 4 (by norm_num) (by norm_num) (by norm_num)

/-! ### C6: the fallback criteria -/

/-- The section label of a chunk as the claim reads it: the text after the
first occurrence of `Section: `, up to the next newline. -/
def sectionLabelOf : List Char → Option (List Char)
  | [] => none
  | c :: t =>
    if "Section: ".data.isPrefixOf (c :: t) then
      some (((c :: t).drop 9).takeWhile (· ≠ '\n'))
    else sectionLabelOf t

/-- Criterion 3 as the claim words it: the section label of the chunk is the
placeholder `Section 1` or `Document`. -/
def labelIsGeneric (c : String) : Bool :=
  match sectionLabelOf c.data with
  | some l => decide (l = "Section 1".data) || decide (l = "Document".data)
  | none => false

/-- The seven-criterion disjunction of the claim, exactly as written, with
criterion 3 as a section-label equality. -/
def claimFallbackAsWritten (origText : String) (chunks : List String) (maxC : Int) : Bool :=
  fbNoChunks chunks || fbSingleOversized maxC chunks || chunks.all labelIsGeneric ||
    fbBroken chunks || fbTooFew origText chunks || fbManyLarge maxC chunks ||
    fbAvgLarge maxC chunks

/-- The seven-criterion disjunction with criterion 3 amended to the
substring containment the source actually performs. -/
def specFallbackDisjunction (origText : String) (chunks : List String) (maxC : Int) : Bool :=
  fbNoChunks chunks || fbSingleOversized maxC chunks || fbAllGeneric chunks ||
    fbBroken chunks || fbTooFew origText chunks || fbManyLarge maxC chunks ||
    fbAvgLarge maxC chunks

theorem if_chain_or (a x : Bool) : (if a = true then true else x) = (a || x) := by
  cases a <;> simp

/-- C6 counterexample: a chunk whose section label is `Real` but whose
content mentions `Section: Document`.  The substring containment of the source
fires criterion 3 and returns `true`, while the seven criteria of the claim,
with labels read as labels, are all false. -/
theorem claim_C6_counterexample :
    shouldUseFixedLengthFallback "x"
      ["Title: T\nSection: Real\nContent: mentions Section: Document inside."] 1000 = true ∧
    claimFallbackAsWritten "x"
      ["Title: T\nSection: Real\nContent: mentions Section: Document inside."] 1000 = false := by
  refine ⟨by decide, by decide⟩

theorem fallback_eq_disjunction (originalText : String) (chunks : List String) (maxC : Int) :
    shouldUseFixedLengthFallback originalText chunks maxC =
      specFallbackDisjunction originalText chunks maxC := by
  unfold shouldUseFixedLengthFallback specFallbackDisjunction fbAllGeneric
  rw [if_chain_or, if_chain_or, if_chain_or, if_chain_or, if_chain_or, if_chain_or,
    if_chain_or]
  simp [Bool.or_assoc]

/-- C6 as amended: `shouldUseFixedLengthFallback` equals the ordered
disjunction of the seven criteria, with criterion 3 read as the substring
containment the source performs, namely containment of `Section: Section 1` or `Section: Document`
anywhere in the chunk (not as a parsed-label equality); determinism is
immediate since the decision is a pure function of its arguments. -/
theorem claim_C6 (originalText : String) (chunks : List String) (maxC : Int) :
    shouldUseFixedLengthFallback originalText chunks maxC =
      specFallbackDisjunction originalText chunks maxC :=
  fallback_eq_disjunction originalText chunks maxC

/-! ### C4: at least one chunk on non-whitespace input -/

theorem flSnap_gt (text : List Char) (maxC start : Int) (hmax : 0 < maxC) :
    start < flSnap text maxC start := by
  unfold flSnap
  by_cases hend : start + maxC < (text.length : Int)
  · rw [if_pos hend]
    by_cases hbp : 2 * start + maxC <
        2 * max (jsLastIndexOf text ['.'] (start + maxC))
          (jsLastIndexOf text ['\n', '\n'] (start + maxC))
    · rw [if_pos hbp]
      omega
    · rw [if_neg hbp]
      omega
  · rw [if_neg hend]
    omega

theorem mem_jsSubstring (text : List Char) (a b : Int) (ha : 0 ≤ a)
    (i : Nat) (c : Char) (h1 : a ≤ (i : Int)) (h2 : ((i : Nat) : Int) < b)
    (h3 : text[i]? = some c) : c ∈ jsSubstring text a b := by
  have hilen : i < text.length := (List.getElem?_eq_some_iff.mp h3).1
  unfold jsSubstring
  rw [if_pos (by omega : min a.toNat text.length ≤ min b.toNat text.length)]
  refine List.mem_iff_getElem?.mpr ⟨i - min a.toNat text.length, ?_⟩
  rw [List.getElem?_drop]
  have hsum : min a.toNat text.length + (i - min a.toNat text.length) = i := by omega
  rw [hsum, List.getElem?_take, if_pos (by omega : i < min b.toNat text.length)]
  exact h3

theorem flLoop_nil_allWs (text : List Char) (maxC ov : Int) (hov : 0 < ov)
    (h2 : ov < maxC) (h3 : 2 * ov ≤ maxC + 2) :
    ∀ (fuel : Nat) (start : Int) (acc : List (List Char)) (res : List (List Char)),
      0 ≤ start →
      (acc = [] → ∀ (i : Nat) (c : Char), text[i]? = some c → (i : Int) < start →
        isWsChar c = true) →
      flLoop text maxC ov fuel start acc = some res → res = [] →
      ∀ (i : Nat) (c : Char), text[i]? = some c → isWsChar c = true := by
  intro fuel
  induction fuel with
  | zero =>
    intro start acc res _ _ hrun
    exact absurd hrun (by simp [flLoop])
  | succ fuel ih =>
    intro start acc res hstart hinv hrun hres
    rw [flLoop] at hrun
    by_cases hs : start < (text.length : Int)
    · rw [if_pos hs] at hrun
      have hmax : 0 < maxC := lt_trans hov h2
      have hgt : start < flSnap text maxC start := flSnap_gt text maxC start hmax
      have hprog : start + 1 ≤ flSnap text maxC start - ov :=
        flSnap_progress text maxC ov h2 h3 start
      by_cases hpush : (jsTrim (jsSubstring text start (flSnap text maxC start))).isEmpty
      · have hwin : ∀ (i : Nat) (c : Char), text[i]? = some c →
            start ≤ (i : Int) → (i : Int) < flSnap text maxC start → isWsChar c = true := by
          intro i c hc hi1 hi2
          have hmem : c ∈ jsSubstring text start (flSnap text maxC start) :=
            mem_jsSubstring text start (flSnap text maxC start) hstart i c hi1 hi2 hc
          exact (jsTrim_eq_nil_iff _).mp (List.isEmpty_iff.mp hpush) c hmem
        have hpe : flPush text start (flSnap text maxC start) acc = acc := by
          simp [flPush, hpush]
        by_cases hstop : (text.length : Int) ≤ flSnap text maxC start - ov
        · rw [if_pos hstop, hpe] at hrun
          have hacc : acc = res := by injection hrun
          subst hacc
          intro i c hc
          have hilen : i < text.length := (List.getElem?_eq_some_iff.mp hc).1
          rcases lt_or_le ((i : Nat) : Int) start with hi | hi
          · exact hinv hres i c hc hi
          · exact hwin i c hc hi (by omega)
        · rw [if_neg hstop, hpe] at hrun
          refine ih (flSnap text maxC start - ov) acc res (by omega) ?_ hrun hres
          intro hacc i c hc hlt
          rcases lt_or_le ((i : Nat) : Int) start with hi | hi
          · exact hinv hacc i c hc hi
          · exact hwin i c hc hi (by omega)
      · have hpe : flPush text start (flSnap text maxC start) acc =
            acc ++ [jsTrim (jsSubstring text start (flSnap text maxC start))] := by
          simp [flPush, hpush]
        by_cases hstop : (text.length : Int) ≤ flSnap text maxC start - ov
        · rw [if_pos hstop, hpe] at hrun
          have hacc : acc ++ [jsTrim (jsSubstring text start (flSnap text maxC start))] =
              res := by injection hrun
          rw [hres] at hacc
          exact absurd hacc (by simp)
        · rw [if_neg hstop, hpe] at hrun
          refine ih (flSnap text maxC start - ov)
            (acc ++ [jsTrim (jsSubstring text start (flSnap text maxC start))]) res
            (by omega) ?_ hrun hres
          intro hacc
          exact absurd hacc (by simp)
    · rw [if_neg hs] at hrun
      have hacc : acc = res := by injection hrun
      subst hacc
      intro i c hc
      have hilen : i < text.length := (List.getElem?_eq_some_iff.mp hc).1
      exact hinv hres i c hc (by omega)

theorem createFixedLengthChunks_ne_nil (text : String) (h : jsTrim text.data ≠ []) :
    createFixedLengthChunks text 1000 100 ≠ [] := by
  have hterm : (flLoop text.data 1000 100 (text.data.length + 1) 0 []).isSome :=
    flLoop_total text.data 1000 100 (by norm_num) (by norm_num)
      (text.data.length + 1) 0 [] (by omega)
  obtain ⟨res, hres⟩ := Option.isSome_iff_exists.mp hterm
  intro hcontra
  unfold createFixedLengthChunks at hcontra
  rw [hres] at hcontra
  have hresnil : res = [] := by simpa using hcontra
  have hallws := flLoop_nil_allWs text.data 1000 100 (by norm_num) (by norm_num)
    (by norm_num) (text.data.length + 1) 0 [] res le_rfl
    (by intro _ i c _ hlt; omega) hres hresnil
  refine h ((jsTrim_eq_nil_iff _).mpr ?_)
  intro c hc
  obtain ⟨n, hn⟩ := List.mem_iff_getElem?.mp hc
  exact hallws n c hn

/-- C4 as amended: for every input whose trim is non-empty, `chunkText` with
the default parameters returns at least one chunk — on the hierarchical path
because an empty chunk list would itself have forced the fallback, and on
the fallback path because the sliding windows jointly cover the text, so
some window contains a non-whitespace character and survives trimming. -/
theorem claim_C4 (text : String) (h : jsTrim text.data ≠ []) :
    (chunkText text 1000 100).chunks ≠ [] := by
  unfold chunkText
  rw [if_neg (by simp [h]; intro hnil; exact absurd (by rw [hnil]; rfl) h)]
  by_cases hfb : shouldUseFixedLengthFallback text (createHierarchicalChunks text 1000) 1000
  · rw [if_pos hfb]
    exact createFixedLengthChunks_ne_nil text h
  · rw [if_neg hfb]
    intro hnil
    have hnil' : createHierarchicalChunks text 1000 = [] := hnil
    rw [hnil'] at hfb
    exact hfb rfl

/-- Witness for C4 at a short concrete input. -/
theorem claim_C4_witness : (chunkText "Short text." 1000 100).chunks ≠ [] :=
  claim_C4 "Short text." (by decide)

/-! ### C7: the hierarchical chunk wire format -/

theorem hierarchical_shape (text : String) (maxC : Int) :
    ∀ c ∈ createHierarchicalChunks text maxC,
      ∃ sectionTitle body : String,
        c = "Title: " ++ extractDocumentTitle text ++ "\nSection: " ++ sectionTitle ++
          "\nContent: " ++ body := by
  intro c hc
  simp only [createHierarchicalChunks, List.mem_flatMap, List.mem_map] at hc
  obtain ⟨p, _, b, _, hcb⟩ := hc
  exact ⟨_, b, hcb.symm⟩

/-- A document used to check the wire format concretely: a single level-1
title line and two level-2 subsections. -/
def c7doc : String := "# Title\n\n## Alpha\nAaa aaa.\n\n## Beta\nBbb bbb."

/-- C7: whenever `chunkText` keeps the hierarchical result on a
non-whitespace input, every chunk is exactly
`Title: <documentTitle>\nSection: <sectionTitle>\nContent: <body>` with the
document title given by `extractDocumentTitle`; and on the concrete
title-plus-two-subsections document exactly one section arises per
subsection heading (the title-only preamble is none) and every chunk starts
with `Title: Title\n`. -/
theorem claim_C7 :
    (∀ (text : String) (maxC ov : Int),
      jsTrim text.data ≠ [] →
      (chunkText text maxC ov).method = ChunkMethod.content_aware_hierarchical →
      ∀ c ∈ (chunkText text maxC ov).chunks,
        ∃ sectionTitle body : String,
          c = "Title: " ++ extractDocumentTitle text ++ "\nSection: " ++ sectionTitle ++
            "\nContent: " ++ body) ∧
    splitByHeadings c7doc = [⟨"Alpha", "Aaa aaa.\n"⟩, ⟨"Beta", "Bbb bbb."⟩] ∧
    (chunkText c7doc 1000 100).method = ChunkMethod.content_aware_hierarchical ∧
    (chunkText c7doc 1000 100).chunks.all
      (fun c => "Title: Title\n".data.isPrefixOf c.data) = true := by
  refine ⟨?_, by decide, by decide, by decide⟩
  intro text maxC ov hnw hmethod c hc
  unfold chunkText at hmethod hc
  rw [if_neg (by simp [hnw]; intro hnil; exact absurd (by rw [hnil]; rfl) hnw)] at hmethod hc
  by_cases hfb : shouldUseFixedLengthFallback text (createHierarchicalChunks text maxC) maxC
  · rw [if_pos hfb] at hmethod
    exact absurd hmethod (by simp)
  · rw [if_neg hfb] at hc
    exact hierarchical_shape text maxC c hc

/-- Witness for C7: the first chunk of the concrete document has the wire
format. -/
theorem claim_C7_witness :
    ∃ sectionTitle body : String,
      "Title: Title\nSection: Alpha\nContent: Aaa aaa." =
        "Title: " ++ extractDocumentTitle c7doc ++ "\nSection: " ++ sectionTitle ++
          "\nContent: " ++ body :=
  claim_C7.1 c7doc 1000 100 (by decide) (by decide) _ (by decide)

/-! ### C8: fallback on heading-free documents -/

theorem containsSub_iff_isInfix (l sub : List Char) :
    containsSub l sub = true ↔ sub <:+: l := by
  induction l with
  | nil =>
    simp [containsSub, List.infix_nil, List.isEmpty_iff]
  | cons c t ih =>
    simp [containsSub, List.infix_cons_iff, List.isPrefixOf_iff_prefix, ih]

theorem jsSubstring_isInfix (text : List Char) (a b : Int) :
    jsSubstring text a b <:+: text := by
  unfold jsSubstring
  split
  · exact ((List.drop_suffix _ _).isInfix).trans
      (List.IsPrefix.isInfix ⟨_, List.take_append_drop _ _⟩)
  · exact ((List.drop_suffix _ _).isInfix).trans
      (List.IsPrefix.isInfix ⟨_, List.take_append_drop _ _⟩)

theorem flLoop_res_isInfix (text : List Char) (maxC ov : Int) :
    ∀ (fuel : Nat) (start : Int) (acc res : List (List Char)),
      (∀ ch ∈ acc, ch <:+: text) →
      flLoop text maxC ov fuel start acc = some res →
      ∀ ch ∈ res, ch <:+: text := by
  intro fuel
  induction fuel with
  | zero => intro start acc res _ hrun; exact absurd hrun (by simp [flLoop])
  | succ fuel ih =>
    intro start acc res hacc hrun
    rw [flLoop] at hrun
    by_cases hs : start < (text.length : Int)
    · rw [if_pos hs] at hrun
      have hpush : ∀ ch ∈ flPush text start (flSnap text maxC start) acc, ch <:+: text := by
        intro ch hch
        unfold flPush at hch
        by_cases he : (jsTrim (jsSubstring text start (flSnap text maxC start))).isEmpty
        · simp [he] at hch
          exact hacc ch hch
        · simp [he] at hch
          rcases hch with h | h
          · exact hacc ch h
          · rw [h]
            exact (jsTrim_isInfix _).trans (jsSubstring_isInfix text _ _)
      by_cases hstop : (text.length : Int) ≤ flSnap text maxC start - ov
      · rw [if_pos hstop] at hrun
        have he : flPush text start (flSnap text maxC start) acc = res := by injection hrun
        rw [← he]
        exact hpush
      · rw [if_neg hstop] at hrun
        exact ih _ _ res hpush hrun
    · rw [if_neg hs] at hrun
      have he : acc = res := by injection hrun
      rw [← he]
      exact hacc

theorem hierarchical_generic_of_nil (text : String) (maxC : Int)
    (h : splitByHeadings text = []) :
    ∀ c ∈ createHierarchicalChunks text maxC,
      containsSub c.data "Section: Document".data = true := by
  intro c hc
  simp only [createHierarchicalChunks, h, List.isEmpty_nil, if_true,
    List.mem_flatMap, List.mem_map] at hc
  obtain ⟨p, hp, b, _, hcb⟩ := hc
  simp at hp
  subst hp
  simp only [] at hcb
  rw [if_neg (by simp : ¬(((0 : Nat), (⟨"Document", text⟩ : Section)).2.title = ""))] at hcb
  have hcb2 : c = ("Title: " ++ extractDocumentTitle text ++ "\n") ++
      "Section: Document" ++ ("\nContent: " ++ b) := by
    rw [← hcb]
    show ("Title: " ++ extractDocumentTitle text ++ "\nSection: " ++ "Document") ++
        "\nContent: " ++ b = _
    rw [show ("\nSection: " : String) = "\n" ++ "Section: " from rfl,
      show ("Section: Document" : String) = "Section: " ++ "Document" from rfl]
    simp [String.append_assoc]
    congr 1
  rw [hcb2]
  refine (containsSub_iff_isInfix _ _).mpr ?_
  rw [String.data_append, String.data_append]
  exact ⟨_, _, rfl⟩

/-- C8 as amended: a non-whitespace text of length at least 3000 with no
heading line always takes the fixed-length path (on such input the single
implicit `Document` section makes criterion 3 fire, or criterion 1 when no
chunk at all is produced), and every returned chunk is a trimmed substring
of the input — so it contains `Title:` or `Section:` only when the input
itself does. -/
theorem claim_C8 (text : String)
    (hlen : 3000 ≤ text.data.length)
    (hnh : ∀ l ∈ splitLines text.data, isHeadingLine (jsTrim l) = false)
    (hnw : jsTrim text.data ≠ []) :
    (chunkText text 1000 100).method = ChunkMethod.fixed_length ∧
    ∀ c ∈ (chunkText text 1000 100).chunks,
      c.data <:+: text.data ∧
      (containsSub text.data "Title:".data = false →
        containsSub c.data "Title:".data = false) ∧
      (containsSub text.data "Section:".data = false →
        containsSub c.data "Section:".data = false) := by
  have hsec : splitByHeadings text = [] := splitByHeadings_eq_nil text hnh
  have hgen : ∀ c ∈ createHierarchicalChunks text 1000,
      containsSub c.data "Section: Document".data = true :=
    hierarchical_generic_of_nil text 1000 hsec
  have hfb : shouldUseFixedLengthFallback text (createHierarchicalChunks text 1000)
      1000 = true := by
    rw [fallback_eq_disjunction]
    unfold specFallbackDisjunction
    by_cases hh : createHierarchicalChunks text 1000 = []
    · rw [hh]
      rfl
    · have hall : fbAllGeneric (createHierarchicalChunks text 1000) = true := by
        unfold fbAllGeneric
        rw [List.all_eq_true]
        intro c hc
        unfold genericSectionChunk
        rw [hgen c hc]
        simp
      rw [hall]
      simp
  have hcond : ¬ (text.data.isEmpty || (jsTrim text.data).isEmpty) = true := by
    simp [hnw]
    intro hnil
    exact absurd (by rw [hnil]; rfl) hnw
  constructor
  · unfold chunkText
    rw [if_neg hcond, if_pos hfb]
  · intro c hc
    unfold chunkText at hc
    rw [if_neg hcond, if_pos hfb] at hc
    have hinf : c.data <:+: text.data := by
      unfold createFixedLengthChunks at hc
      cases hrun : flLoop text.data 1000 100 (text.data.length + 1) 0 [] with
      | none =>
        rw [hrun] at hc
        simp at hc
      | some res =>
        rw [hrun] at hc
        simp at hc
        obtain ⟨ch, hch, hceq⟩ := hc
        have hchi := flLoop_res_isInfix text.data 1000 100 _ 0 [] res (by simp) hrun ch hch
        rw [← hceq]
        exact hchi
    refine ⟨hinf, ?_, ?_⟩
    · intro ht
      cases hb : containsSub c.data "Title:".data with
      | false => rfl
      | true =>
        have h2 : "Title:".data <:+: text.data :=
          ((containsSub_iff_isInfix _ _).mp hb).trans hinf
        rw [(containsSub_iff_isInfix _ _).mpr h2] at ht
        exact absurd ht (by simp)
    · intro ht
      cases hb : containsSub c.data "Section:".data with
      | false => rfl
      | true =>
        have h2 : "Section:".data <:+: text.data :=
          ((containsSub_iff_isInfix _ _).mp hb).trans hinf
        rw [(containsSub_iff_isInfix _ _).mpr h2] at ht
        exact absurd ht (by simp)

theorem splitLinesAux_no_nl :
    ∀ (l cur : List Char), (∀ c ∈ l, c ≠ '\n') →
      splitLinesAux l cur = [cur.reverse ++ l] := by
  intro l
  induction l with
  | nil => intro cur _; simp [splitLinesAux]
  | cons a t ih =>
    intro cur h
    have ha : a ≠ '\n' := h a (List.mem_cons_self _ _)
    rw [splitLinesAux, if_neg ha, ih (a :: cur) (fun c hc => h c (List.mem_cons_of_mem _ hc))]
    simp

theorem splitLines_no_nl (l : List Char) (h : ∀ c ∈ l, c ≠ '\n') :
    splitLines l = [l] := by
  unfold splitLines
  rw [splitLinesAux_no_nl l [] h]
  simp

theorem jsTrim_replicate_a (n : Nat) :
    jsTrim (List.replicate n 'a') = List.replicate n 'a' := by
  have hdw : ∀ (m : Nat),
      List.dropWhile isWsChar (List.replicate m 'a') = List.replicate m 'a' := by
    intro m
    cases m with
    | zero => rfl
    | succ k => rw [List.replicate_succ, List.dropWhile_cons_of_neg (by decide)]
  unfold jsTrim trimRight trimLeft
  rw [hdw, List.reverse_replicate, hdw, List.reverse_replicate]

theorem isHeadingLine_replicate_a (n : Nat) :
    isHeadingLine (List.replicate n 'a') = false := by
  cases n with
  | zero => rfl
  | succ k =>
    unfold isHeadingLine
    rw [List.replicate_succ, List.takeWhile_cons_of_neg (by decide)]
    simp

/-- A 3000-character whitespace-only document. -/
def ws3000 : String := String.mk (List.replicate 3000 ' ')

/-- A 3000-character heading-free prose stand-in. -/
def a3000 : String := String.mk (List.replicate 3000 'a')

/-- C8 counterexample: a 3000-character whitespace-only text has no heading
line, yet `chunkText` takes the early whitespace return and the method is
the hierarchical tag, not `fixed_length`. -/
theorem claim_C8_counterexample :
    3000 ≤ ws3000.data.length ∧
    (∀ l ∈ splitLines ws3000.data, isHeadingLine (jsTrim l) = false) ∧
    (chunkText ws3000 1000 100).method ≠ ChunkMethod.fixed_length := by
  have hdata : ws3000.data = List.replicate 3000 ' ' := rfl
  have htrim : jsTrim ws3000.data = [] := by
    rw [hdata]
    exact (jsTrim_eq_nil_iff _).mpr
      (fun c hc => by rw [(List.mem_replicate.mp hc).2]; rfl)
  refine ⟨by rw [hdata, List.length_replicate], ?_, ?_⟩
  · intro l hl
    rw [hdata, splitLines_no_nl _
      (fun c hc => by rw [(List.mem_replicate.mp hc).2]; decide)] at hl
    rw [List.mem_singleton] at hl
    rw [hl, ← hdata, htrim]
    rfl
  · intro hmethod
    unfold chunkText at hmethod
    rw [if_pos (by simp [htrim])] at hmethod
    exact absurd hmethod (by simp)

/-- Witness for C8 on 3000 characters of heading-free non-whitespace
text. -/
theorem claim_C8_witness :
    (chunkText a3000 1000 100).method = ChunkMethod.fixed_length ∧
    ∀ c ∈ (chunkText a3000 1000 100).chunks,
      c.data <:+: a3000.data ∧
      (containsSub a3000.data "Title:".data = false →
        containsSub c.data "Title:".data = false) ∧
      (containsSub a3000.data "Section:".data = false →
        containsSub c.data "Section:".data = false) := by
  have hdata : a3000.data = List.replicate 3000 'a' := rfl
  apply claim_C8
  · rw [hdata, List.length_replicate]
  · intro l hl
    rw [hdata, splitLines_no_nl _
      (fun c hc => by rw [(List.mem_replicate.mp hc).2]; decide)] at hl
    rw [List.mem_singleton] at hl
    rw [hl, jsTrim_replicate_a]
    exact isHeadingLine_replicate_a 3000
  · rw [hdata, jsTrim_replicate_a]
    intro hnil
    have hlen3 : (List.replicate 3000 'a').length = 3000 := List.length_replicate _ _
    rw [hnil] at hlen3
    exact absurd hlen3 (by decide)

end CAC
